import Mathlib

/-!
Shallow embedding of the `merges` CRDT library (src/CRDT.py, src/DeltaCRDT.py).

Conventions of the embedding:
- Python `dict`s are modelled as association lists `List (K × α)` whose
  semantics is given by `alookup` (first matching key wins).  A sequence of
  dict assignments `m[k] = v` (later assignments overwrite earlier ones) is
  modelled by list segments listed in *reverse* order, so that the segment
  corresponding to the last loop comes first and wins the lookup.
- Python `set`s are modelled as `List` with membership semantics; set union
  is `++`, intersection and difference are `filter`.
- Mutation is modelled by returning the new value; `copy()` is the identity.
- A Python method that can only raise on malformed input (e.g. `join` on
  mismatched dot-store variants, which dies with an `AttributeError`) is
  modelled with `Option`/`Except`, `none`/`.error` being the raising path.
-/

/-- A dot is a pair (replica id, sequence number), as in DeltaCRDT.py. -/
abbrev Dot := Nat × Nat

/-- First-match lookup in an association list (the semantics of a Python
dict whose later assignments are consed to the front). -/
def alookup {K α : Type} [DecidableEq K] : List (K × α) → K → Option α
  | [], _ => none
  | p :: rest, k => if p.1 = k then some p.2 else alookup rest k

/-- Lookup with a default value: Python `m.get(k, d)`. -/
def getD {K α : Type} [DecidableEq K] (m : List (K × α)) (k : K) (d : α) : α :=
  (alookup m k).getD d

/-- The three dot-store variants of DeltaCRDT.py: `DotSet`, `DotFun`
(map from dots to values) and `DotMap` (map from keys to nested dot
stores, with a designated bottom value for absent keys). -/
inductive DStore (K V : Type) : Type where
  | dotSet (s : List Dot)
  | dotFun (m : List (Dot × V))
  | dotMap (bot : DStore K V) (m : List (K × DStore K V))
deriving Inhabited

namespace DStore

variable {K V : Type} [DecidableEq K]

/-- `is_bottom()`: the underlying collection is empty. -/
def isBottom : DStore K V → Bool
  | .dotSet s => s.isEmpty
  | .dotFun m => m.isEmpty
  | .dotMap _ m => m.isEmpty

mutual

/-- `dots()`: the dots of a `DotSet` are its elements, of a `DotFun` its
keys, of a `DotMap` the union of the dots of its values (the bottom value
is not consulted, exactly as in the Python `DotMap.dots`). -/
def dotsList : DStore K V → List Dot
  | .dotSet s => s
  | .dotFun m => m.map Prod.fst
  | .dotMap _ m => dotsOfEntries m

/-- Union of the dots of the values of a dot-map entry list. -/
def dotsOfEntries : List (K × DStore K V) → List Dot
  | [] => []
  | p :: rest => dotsList p.2 ++ dotsOfEntries rest

end

/-- The key list of a dot map (Python `domain()` / dict key iteration). -/
def keysOf (m : List (K × DStore K V)) : List K := m.map Prod.fst

/-- Projection of the entry list out of a `dotMap` (empty otherwise). -/
def mapOf : DStore K V → List (K × DStore K V)
  | .dotMap _ m => m
  | _ => []

/-- Projection of the bottom value out of a `dotMap`. -/
def botOf : DStore K V → DStore K V
  | .dotMap b _ => b
  | d => d

end DStore

mutual

/-- `CausalCRDT.join` of DeltaCRDT.py, acting on the dot store; the two
causal contexts are passed alongside.  Returns `none` where the Python
code would raise (dot-store variant mismatch between the operands).
The three `++` segments of the `dotFun` case are the three dict-building
loops of the source in reverse order (first segment wins the lookup, as
the last loop wins the dict assignment). -/
def joinStore {K V : Type} [DecidableEq K] :
    DStore K V → List Dot → DStore K V → List Dot → Option (DStore K V)
  | .dotSet s1, c1, .dotSet s2, c2 =>
      some (.dotSet (s2.filter (fun d => decide (d ∈ s1))
        ++ s1.filter (fun d => decide (d ∉ c2))
        ++ s2.filter (fun d => decide (d ∉ c1))))
  | .dotFun m1, c1, .dotFun m2, c2 =>
      some (.dotFun (m1.filter (fun p => (alookup m2 p.1).isSome)
        ++ m2.filter (fun p => decide (p.1 ∉ c1))
        ++ m1.filter (fun p => decide (p.1 ∉ c2))))
  | .dotMap b1 m1, c1, .dotMap b2 m2, c2 =>
      (joinEntries ((DStore.keysOf m1 ++ DStore.keysOf m2).dedup) b1 m1 c1 b2 m2 c2).map
        (fun m => .dotMap b1 m)
  | .dotSet _, _, .dotFun _, _ => none
  | .dotSet _, _, .dotMap _ _, _ => none
  | .dotFun _, _, .dotSet _, _ => none
  | .dotFun _, _, .dotMap _ _, _ => none
  | .dotMap _ _, _, .dotSet _, _ => none
  | .dotMap _ _, _, .dotFun _, _ => none
termination_by a _ b _ => (sizeOf a + sizeOf b, 0)
decreasing_by
  apply Prod.Lex.left
  simp only [DStore.dotMap.sizeOf_spec]
  omega

/-- The per-key loop of the `DotMap` branch of `CausalCRDT.join`: for each
key of the union of the domains, recursively join the two values (the
respective bottom substituted for an absent key) under the full parent
contexts, and keep the result unless it is bottom. -/
def joinEntries {K V : Type} [DecidableEq K] :
    List K → DStore K V → List (K × DStore K V) → List Dot →
    DStore K V → List (K × DStore K V) → List Dot →
    Option (List (K × DStore K V))
  | [], _, _, _, _, _, _ => some []
  | k :: ks, b1, m1, c1, b2, m2, c2 => do
      let v ← joinStore (getD m1 k b1) c1 (getD m2 k b2) c2
      let rest ← joinEntries ks b1 m1 c1 b2 m2 c2
      pure (if v.isBottom then rest else (k, v) :: rest)
termination_by ks b1 m1 _ b2 m2 _ =>
  (sizeOf b1 + sizeOf m1 + sizeOf b2 + sizeOf m2, ks.length)
decreasing_by
  · apply Prod.Lex.left
    have key : ∀ (m : List (K × DStore K V)) (k : K) (b : DStore K V),
        sizeOf (getD m k b) < sizeOf b + sizeOf m := by
      intro m k b
      induction m with
      | nil =>
          simp only [getD, alookup, Option.getD_none, List.nil.sizeOf_spec]
          omega
      | cons p rest ih =>
          simp only [getD, alookup] at ih ⊢
          split
          · rcases p with ⟨pk, pv⟩
            simp only [Option.getD_some, List.cons.sizeOf_spec, Prod.mk.sizeOf_spec]
            omega
          · simp only [List.cons.sizeOf_spec]
            omega
    have h1 := key m1 k b1
    have h2 := key m2 k b2
    omega
  · apply Prod.Lex.right
    simp

end

/-- A causal CRDT state: a dot store paired with a causal context. -/
structure CState (K V : Type) where
  ds : DStore K V
  ctx : List Dot

/-- `CausalCRDT.join`, at the level of whole states: join the dot stores
and union the causal contexts. -/
def CState.join {K V : Type} [DecidableEq K] (a b : CState K V) :
    Option (CState K V) :=
  (joinStore a.ds a.ctx b.ds b.ctx).map (fun s => ⟨s, a.ctx ++ b.ctx⟩)

/-- The invariant of causal CRDT states: every dot of the dot store is in
the causal context. -/
def CState.inv {K V : Type} [DecidableEq K] (A : CState K V) : Prop :=
  ∀ d ∈ A.ds.dotsList, d ∈ A.ctx

/-- Semantic (extensional) view of a dot store: a Python set is its
membership predicate and a Python dict is its lookup function, so two
stores with the same semantic view are indistinguishable states. -/
inductive Sem (K V : Type) : Type where
  | dotSet (s : Set Dot)
  | dotFun (m : Dot → Option V)
  | dotMap (bot : Sem K V) (m : K → Option (Sem K V))

mutual

/-- Denotation of a dot store as its semantic view. -/
def DStore.denote {K V : Type} [DecidableEq K] : DStore K V → Sem K V
  | .dotSet s => .dotSet (fun d => d ∈ s)
  | .dotFun m => .dotFun (fun d => alookup m d)
  | .dotMap b m => .dotMap b.denote (fun k => alookup (denoteEntries m) k)

/-- Pointwise denotation of the entry list of a dot map. -/
def denoteEntries {K V : Type} [DecidableEq K] :
    List (K × DStore K V) → List (K × Sem K V)
  | [] => []
  | p :: rest => (p.1, p.2.denote) :: denoteEntries rest

end

/-- Semantic emptiness of a dot store's view (the denotation of
`is_bottom`). -/
def Sem.isEmptySem {K V : Type} : Sem K V → Prop
  | .dotSet s => ∀ d, d ∉ s
  | .dotFun m => ∀ d, m d = none
  | .dotMap _ m => ∀ k, m k = none

mutual

/-- All designated bottom values of a dot store are empty (as every
bottom built by the library is); absent keys then contribute no dots. -/
def DStore.botsOk {K V : Type} : DStore K V → Bool
  | .dotSet _ => true
  | .dotFun _ => true
  | .dotMap b m => b.isBottom && b.botsOk && botsOkEntries m

/-- `botsOk` for every value of a dot-map entry list. -/
def botsOkEntries {K V : Type} : List (K × DStore K V) → Bool
  | [] => true
  | p :: rest => p.2.botsOk && botsOkEntries rest

end

mutual

/-- No value stored in a dot map (recursively) is a bottom dot store. -/
def DStore.noBotVals {K V : Type} : DStore K V → Bool
  | .dotSet _ => true
  | .dotFun _ => true
  | .dotMap _ m => noBotValsEntries m

/-- `noBotVals` together with non-bottomness for each entry value. -/
def noBotValsEntries {K V : Type} : List (K × DStore K V) → Bool
  | [] => true
  | p :: rest => (!p.2.isBottom) && p.2.noBotVals && noBotValsEntries rest

end

/-- The underlying dot list of a `dotSet` (the Python `.set` attribute;
accessing it on another variant raises in Python and yields `[]` here —
no claim depends on that branch). -/
def DStore.setOf {K V : Type} : DStore K V → List Dot
  | .dotSet s => s
  | _ => []

/-- Modelled from the spec: `next_dot()` of a replica (`CRDTStore`).  The
method is called by `MVRegister.write`, `AWSet.add`, `RWSet.add` and
`RWSet.remove` but is absent from src/CRDT.py; §4.1 of the spec gives its
contract.  A replica carries its id and its per-replica sequence counter;
`next_dot` increments the counter and returns the dot
`(replica id, new counter value)` together with the new replica state. -/
structure Replica where
  rid : Nat
  seq : Nat

def Replica.next_dot (r : Replica) : Dot × Replica :=
  ((r.rid, r.seq + 1), ⟨r.rid, r.seq + 1⟩)

/-- The replica state after `n` calls of `next_dot`. -/
def Replica.afterCalls (r : Replica) : Nat → Replica
  | 0 => r
  | n + 1 => ((r.afterCalls n).next_dot).2

/-- The dot returned by the `n`-th call of `next_dot` (counting from 0)
on a replica starting in state `r`. -/
def Replica.dotAt (r : Replica) (n : Nat) : Dot :=
  ((r.afterCalls n).next_dot).1

/-- Delta of `MVRegister.write`: a one-entry `DotFun` at the fresh dot,
context all prior value dots plus the fresh dot. -/
def mvWriteDelta {K V : Type} [DecidableEq K] (cur : CState K V) (dot : Dot)
    (v : V) : CState K V :=
  ⟨.dotFun [(dot, v)], cur.ds.dotsList ++ [dot]⟩

/-- Delta of `MVRegister.clear`: empty `DotFun`, context all prior value
dots. -/
def mvClearDelta {K V : Type} [DecidableEq K] (cur : CState K V) : CState K V :=
  ⟨.dotFun [], cur.ds.dotsList⟩

/-- Delta of `AWSet.add e`: a singleton dot set under `e`, context the
element's current dot set plus the fresh dot. -/
def awAddDelta {K V : Type} [DecidableEq K] (cur : CState K V) (dot : Dot)
    (e : K) : CState K V :=
  ⟨.dotMap (.dotSet []) [(e, .dotSet [dot])],
   (match alookup (DStore.mapOf cur.ds) e with
    | some v => v.setOf
    | none => []) ++ [dot]⟩

/-- Delta of `AWSet.remove e`: empty map, context the element's current
dot set. -/
def awRemoveDelta {K V : Type} [DecidableEq K] (cur : CState K V) (e : K) :
    CState K V :=
  ⟨.dotMap (.dotSet []) [],
   match alookup (DStore.mapOf cur.ds) e with
   | some v => v.setOf
   | none => []⟩

/-- Delta of `AWSet.clear`: empty map, context all current dots. -/
def awClearDelta {K V : Type} [DecidableEq K] (cur : CState K V) : CState K V :=
  ⟨.dotMap (.dotSet []) [], cur.ds.dotsList⟩

/-- Delta of `RWSet.add e`: a fresh dot tagged `true` under `e` (keys of
the two map levels are modelled as `E ⊕ Bool`: outer keys `Sum.inl`
elements, inner keys `Sum.inr` tags), context the element's current dots
plus the fresh dot. -/
def rwAddDelta {E V : Type} [DecidableEq E] (cur : CState (E ⊕ Bool) V)
    (dot : Dot) (e : E) : CState (E ⊕ Bool) V :=
  ⟨.dotMap (.dotMap (.dotSet []) [])
     [(Sum.inl e, .dotMap (.dotSet []) [(Sum.inr true, .dotSet [dot])])],
   (match alookup (DStore.mapOf cur.ds) (Sum.inl e) with
    | some v => v.dotsList
    | none => []) ++ [dot]⟩

/-- Delta of `RWSet.remove e`: a fresh dot tagged `false` under `e`,
context the element's current dots plus the fresh dot. -/
def rwRemoveDelta {E V : Type} [DecidableEq E] (cur : CState (E ⊕ Bool) V)
    (dot : Dot) (e : E) : CState (E ⊕ Bool) V :=
  ⟨.dotMap (.dotMap (.dotSet []) [])
     [(Sum.inl e, .dotMap (.dotSet []) [(Sum.inr false, .dotSet [dot])])],
   (match alookup (DStore.mapOf cur.ds) (Sum.inl e) with
    | some v => v.dotsList
    | none => []) ++ [dot]⟩

/-- Delta of `RWSet.clear`: empty map, context all current dots. -/
def rwClearDelta {E V : Type} [DecidableEq E] (cur : CState (E ⊕ Bool) V) :
    CState (E ⊕ Bool) V :=
  ⟨.dotMap (.dotMap (.dotSet []) []) [], cur.ds.dotsList⟩

/-- Delta of `ORMap.apply k f`: materialize the value currently at `k`
(the map's bottom if absent) with the parent's causal context, run the
caller-supplied mutation `f` on it, and wrap the outcome as a one-key
map delta carrying the mutated context.  `none` if the state's store is
not a dot map (where Python would raise). -/
def orMapApply {K V : Type} [DecidableEq K] (cur : CState K V) (k : K)
    (f : CState K V → CState K V) : Option (CState K V) :=
  match cur.ds with
  | .dotMap b m =>
      let v := f ⟨getD m k b, cur.ctx⟩
      some ⟨.dotMap b [(k, v.ds)], v.ctx⟩
  | _ => none

/-- Delta of `ORMap.remove k`: empty map over the value bottom, context
all dots currently under `k`. -/
def orMapRemoveDelta {K V : Type} [DecidableEq K] (cur : CState K V) (k : K) :
    Option (CState K V) :=
  match cur.ds with
  | .dotMap b m =>
      some ⟨.dotMap b [],
        match alookup m k with
        | some v => v.dotsList
        | none => []⟩
  | _ => none

/-- Delta of `ORMap.clear`: empty map (over a `DotSet` bottom, as in the
source), context all current dots. -/
def orMapClearDelta {K V : Type} [DecidableEq K] (cur : CState K V) :
    CState K V :=
  ⟨.dotMap (.dotSet []) [], cur.ds.dotsList⟩

/-- Replace the value at a present key of a dict, keeping its position. -/
def setEntry (m : List (Nat × Int)) (k : Nat) (v : Int) : List (Nat × Int) :=
  m.map (fun p => if p.1 = k then (k, v) else p)

/-- `StateCounter._doInc`: accumulate the increment amount into the entry
keyed by the originating store id (adding a new entry if absent). -/
def stateCounterDoInc (sv : List (Nat × Int)) (sid : Nat) (amt : Int) :
    List (Nat × Int) :=
  match alookup sv sid with
  | some v => setEntry sv sid (v + amt)
  | none => sv ++ [(sid, amt)]

/-- `StateCounter.get`: sum of all per-replica accumulated values. -/
def stateCounterGet (sv : List (Nat × Int)) : Int :=
  (sv.map Prod.snd).sum

/-- The state of an `LWWRegister`: current Lamport timestamp and value. -/
structure LWWState (V : Type) where
  t : Nat
  value : V

/-- `LWWRegister._doSet` executed at the replica whose store id is
`selfId`, on an incoming command with timestamp `t`, originating store
id `srcStore` and value `v`. -/
def lwwDoSet {V : Type} (selfId : Nat) (st : LWWState V) (t : Nat)
    (srcStore : Nat) (v : V) : LWWState V :=
  if t > st.t then ⟨t, v⟩
  else if t = st.t ∧ srcStore > selfId then ⟨st.t, v⟩
  else if srcStore = selfId then ⟨st.t, v⟩
  else st

/-- The state of an `ORSet`: add set and tombstone set of
(element, unique tag) pairs (tags model the uuids). -/
structure ORSetState (E : Type) where
  adds : List (E × Nat)
  tombs : List (E × Nat)

/-- `ORSet.contains`: some add-tag for the element is not tombstoned. -/
def orsContains {E : Type} [DecidableEq E] (s : ORSetState E) (e : E) : Bool :=
  s.adds.any (fun x => decide (x.1 = e) && !(s.tombs.any (fun y => decide (y = x))))

/-- `ORSet._doAdd`: record the (element, tag) pair. -/
def orsAdd {E : Type} (s : ORSetState E) (e : E) (tag : Nat) : ORSetState E :=
  { s with adds := s.adds ++ [(e, tag)] }

/-- `ORSet.remove` executed locally: tombstone every currently-known tag
of the element. -/
def orsRemove {E : Type} [DecidableEq E] (s : ORSetState E) (e : E) :
    ORSetState E :=
  { s with
    tombs := s.tombs ++ (s.adds.filter (fun x => decide (x.1 = e))).map
      (fun x => (e, x.2)) }

/-- The error conditions a `CRDTMap` access can raise. -/
inductive MapErr where
  | keyNotFound
  | internalKeyError
deriving DecidableEq

/-- The state of a `CRDTMap`: the keyset (an `ORSet` of keys) and the
dict from keys to the names (modelled as numbers) of the child CRDTs. -/
structure CRDTMapState (E : Type) where
  keyset : ORSetState E
  map : List (E × Nat)

/-- `CRDTMap.__getitem__`: an access of a present key re-adds the key to
the keyset (with a fresh `tag`) and returns the child CRDT's name; an
absent key raises `KeyError` (`keyNotFound` here). -/
def cmGetItem {E : Type} [DecidableEq E] (m : CRDTMapState E) (k : E)
    (tag : Nat) : Except MapErr (CRDTMapState E × Nat) :=
  if orsContains m.keyset k then
    let m2 := { m with keyset := orsAdd m.keyset k tag }
    match alookup m2.map k with
    | some nm => .ok (m2, nm)
    | none => .error .internalKeyError
  else .error .keyNotFound

/-- `CRDTMap.remove`: a present key is removed from the keyset and the
name of the child CRDT to `reset()` is handed back (the reset itself
goes through the store, outside this state); an absent key is silently
ignored — no error, state unchanged, no child reset. -/
def cmRemove {E : Type} [DecidableEq E] (m : CRDTMapState E) (k : E) :
    Except MapErr (CRDTMapState E × Option Nat) :=
  if orsContains m.keyset k then
    match alookup m.map k with
    | some nm => .ok ({ m with keyset := orsRemove m.keyset k }, some nm)
    | none => .error .internalKeyError
  else .ok (m, none)

/-- A command as broadcast between stores: the name of the originating
CRDT (`None` before `setSource`) and the payload. -/
structure Command (γ : Type) where
  source : Option Nat
  payload : γ

/-- `CRDTStore.receive`: execute the command on the CRDT registered
under the command's source name, if one is registered; silently ignore
the command otherwise.  `exec` is the executor dispatch
(`executeCommand`) of the target CRDT. -/
def storeReceive {γ σ : Type} (exec : σ → γ → σ) (crdts : List (Nat × σ))
    (cmd : Command γ) : List (Nat × σ) :=
  match cmd.source with
  | some nm =>
      if (alookup crdts nm).isSome then
        crdts.map (fun p => if p.1 = nm then (p.1, exec p.2 cmd.payload) else p)
      else crdts
  | none => crdts

/-! Basic lemmas about association-list lookup and the dot-store
auxiliaries. -/

theorem alookup_append {K α : Type} [DecidableEq K] (l1 l2 : List (K × α))
    (k : K) :
    alookup (l1 ++ l2) k =
      if (alookup l1 k).isSome then alookup l1 k else alookup l2 k := by
  induction l1 with
  | nil => simp [alookup]
  | cons p rest ih =>
      simp only [List.cons_append, alookup]
      by_cases h : p.1 = k
      · simp [h]
      · simp [h, ih]

theorem alookup_filter_key {K α : Type} [DecidableEq K] (P : K → Bool)
    (l : List (K × α)) (k : K) :
    alookup (l.filter (fun p => P p.1)) k =
      if P k then alookup l k else none := by
  induction l with
  | nil => simp [alookup]
  | cons p rest ih =>
      by_cases hP : P p.1
      · by_cases hk : p.1 = k
        · subst hk
          simp [List.filter_cons, hP, alookup]
        · simp [List.filter_cons, hP, alookup, hk, ih]
      · by_cases hk : p.1 = k
        · subst hk
          simp only [List.filter_cons, Bool.not_eq_true] at hP ⊢
          simp [hP, alookup, ih]
        · simp only [List.filter_cons]
          by_cases hP2 : P p.1 <;> simp [hP2, alookup, hk, ih]

theorem alookup_some_mem {K α : Type} [DecidableEq K] {l : List (K × α)}
    {k : K} {v : α} (h : alookup l k = some v) : (k, v) ∈ l := by
  induction l with
  | nil => simp [alookup] at h
  | cons p rest ih =>
      simp only [alookup] at h
      by_cases hk : p.1 = k
      · rw [if_pos hk] at h
        injection h with h
        subst h
        subst hk
        exact List.mem_cons_self _ _
      · rw [if_neg hk] at h
        exact List.mem_cons_of_mem _ (ih h)

theorem alookup_isSome_iff {K α : Type} [DecidableEq K] (l : List (K × α))
    (k : K) : (alookup l k).isSome = true ↔ k ∈ l.map Prod.fst := by
  induction l with
  | nil => simp [alookup]
  | cons p rest ih =>
      simp only [alookup, List.map_cons, List.mem_cons]
      by_cases hk : p.1 = k
      · simp [hk]
      · simp [hk, ih, Ne.symm hk]

theorem isBottom_dotsList {K V : Type} [DecidableEq K] {b : DStore K V}
    (h : b.isBottom = true) : b.dotsList = [] := by
  cases b with
  | dotSet s =>
      simp only [DStore.isBottom, List.isEmpty_iff] at h
      simp [DStore.dotsList, h]
  | dotFun m =>
      simp only [DStore.isBottom, List.isEmpty_iff] at h
      simp [DStore.dotsList, h]
  | dotMap b m =>
      simp only [DStore.isBottom, List.isEmpty_iff] at h
      simp [DStore.dotsList, h, DStore.dotsOfEntries]

theorem mem_dotsOfEntries {K V : Type} [DecidableEq K]
    {m : List (K × DStore K V)} {k : K} {v : DStore K V}
    (h : alookup m k = some v) {d : Dot} (hd : d ∈ v.dotsList) :
    d ∈ DStore.dotsOfEntries m := by
  induction m with
  | nil => simp [alookup] at h
  | cons p rest ih =>
      simp only [alookup] at h
      simp only [DStore.dotsOfEntries, List.mem_append]
      by_cases hk : p.1 = k
      · rw [if_pos hk] at h
        injection h with h
        subst h
        exact Or.inl hd
      · rw [if_neg hk] at h
        exact Or.inr (ih h)

theorem getD_sizeOf_lt {K V : Type} [DecidableEq K]
    (m : List (K × DStore K V)) (k : K) (b : DStore K V) :
    sizeOf (getD m k b) < sizeOf b + sizeOf m := by
  induction m with
  | nil =>
      simp only [getD, alookup, Option.getD_none, List.nil.sizeOf_spec]
      omega
  | cons p rest ih =>
      simp only [getD, alookup] at ih ⊢
      split
      · rcases p with ⟨pk, pv⟩
        simp only [Option.getD_some, List.cons.sizeOf_spec, Prod.mk.sizeOf_spec]
        omega
      · simp only [List.cons.sizeOf_spec]
        omega

theorem botsOkEntries_alookup {K V : Type} [DecidableEq K]
    {m : List (K × DStore K V)} (h : botsOkEntries m = true) {k : K}
    {v : DStore K V} (hl : alookup m k = some v) : v.botsOk = true := by
  induction m with
  | nil => simp [alookup] at hl
  | cons p rest ih =>
      simp only [botsOkEntries, Bool.and_eq_true] at h
      simp only [alookup] at hl
      by_cases hk : p.1 = k
      · rw [if_pos hk] at hl
        injection hl with hl
        subst hl
        exact h.1
      · rw [if_neg hk] at hl
        exact ih h.2 hl

theorem noBotValsEntries_alookup {K V : Type} [DecidableEq K]
    {m : List (K × DStore K V)} (h : noBotValsEntries m = true) {k : K}
    {v : DStore K V} (hl : alookup m k = some v) :
    v.isBottom = false ∧ v.noBotVals = true := by
  induction m with
  | nil => simp [alookup] at hl
  | cons p rest ih =>
      simp only [noBotValsEntries, Bool.and_eq_true, Bool.not_eq_true'] at h
      simp only [alookup] at hl
      by_cases hk : p.1 = k
      · rw [if_pos hk] at hl
        injection hl with hl
        subst hl
        exact ⟨h.1.1, h.1.2⟩
      · rw [if_neg hk] at hl
        exact ih h.2 hl

theorem alookup_denoteEntries {K V : Type} [DecidableEq K]
    (m : List (K × DStore K V)) (k : K) :
    alookup (denoteEntries m) k = (alookup m k).map DStore.denote := by
  induction m with
  | nil => simp [denoteEntries, alookup]
  | cons p rest ih =>
      simp only [denoteEntries, alookup]
      by_cases hk : p.1 = k
      · simp [hk]
      · simp [hk, ih]

theorem joinEntries_alookup {K V : Type} [DecidableEq K]
    {b1 b2 : DStore K V} {m1 m2 : List (K × DStore K V)} {c1 c2 : List Dot} :
    ∀ {ks : List K}, ks.Nodup → ∀ {m : List (K × DStore K V)},
    joinEntries ks b1 m1 c1 b2 m2 c2 = some m → ∀ k,
    alookup m k =
      if k ∈ ks then
        (joinStore (getD m1 k b1) c1 (getD m2 k b2) c2).bind
          (fun v => if v.isBottom then none else some v)
      else none := by
  intro ks
  induction ks with
  | nil =>
      intro _ m h k
      simp only [joinEntries] at h
      injection h with h
      subst h
      simp [alookup]
  | cons k0 ks ih =>
      intro hnd m h k
      simp only [joinEntries, Option.bind_eq_bind, Option.bind_eq_some] at h
      obtain ⟨v, hv, rest, hrest, hm⟩ := h
      injection hm with hm
      subst hm
      have hk0ks : k0 ∉ ks := (List.nodup_cons.mp hnd).1
      have ihr := ih (List.nodup_cons.mp hnd).2 hrest
      have hmem : ∀ kk, kk ≠ k0 → (kk ∈ k0 :: ks ↔ kk ∈ ks) := by
        intro kk hkk
        simp [List.mem_cons, hkk]
      by_cases hbot : v.isBottom = true
      · rw [if_pos hbot]
        by_cases hk : k = k0
        · subst hk
          rw [ihr k, if_neg hk0ks, if_pos (List.mem_cons_self k ks), hv,
            Option.some_bind, if_pos hbot]
        · rw [ihr k]
          by_cases h2 : k ∈ ks
          · rw [if_pos h2, if_pos ((hmem k hk).mpr h2)]
          · rw [if_neg h2, if_neg (fun hc => h2 ((hmem k hk).mp hc))]
      · rw [if_neg hbot]
        by_cases hk : k = k0
        · subst hk
          rw [if_pos (List.mem_cons_self k ks), hv, Option.some_bind,
            if_neg hbot]
          simp [alookup]
        · have hstep : alookup ((k0, v) :: rest) k = alookup rest k := by
            simp only [alookup]
            rw [if_neg (fun hc => hk ((show k0 = k from hc).symm))]
          rw [hstep, ihr k]
          by_cases h2 : k ∈ ks
          · rw [if_pos h2, if_pos ((hmem k hk).mpr h2)]
          · rw [if_neg h2, if_neg (fun hc => h2 ((hmem k hk).mp hc))]

/-! Claim theorems. -/

/-- C2: for every pair of causal CRDT states whose dot stores are
DotSets, join produces the dot set
(A.set ∩ B.set) ∪ (A.set − B.ctx) ∪ (B.set − A.ctx) and the causal
context A.ctx ∪ B.ctx. -/
theorem dotSet_join_spec {K V : Type} [DecidableEq K]
    (s1 s2 c1 c2 : List Dot) :
    ∃ r : CState K V,
      CState.join ⟨.dotSet s1, c1⟩ ⟨.dotSet s2, c2⟩ = some r ∧
      (∃ s, r.ds = .dotSet s ∧
        ∀ d, d ∈ s ↔
          (d ∈ s1 ∧ d ∈ s2) ∨ (d ∈ s1 ∧ d ∉ c2) ∨ (d ∈ s2 ∧ d ∉ c1)) ∧
      (∀ d, d ∈ r.ctx ↔ d ∈ c1 ∨ d ∈ c2) := by
  refine ⟨⟨.dotSet (s2.filter (fun d => decide (d ∈ s1))
      ++ s1.filter (fun d => decide (d ∉ c2))
      ++ s2.filter (fun d => decide (d ∉ c1))), c1 ++ c2⟩, ?_, ⟨_, rfl, ?_⟩, ?_⟩
  · simp [CState.join, joinStore]
  · intro d
    simp only [List.mem_append, List.mem_filter, decide_eq_true_eq]
    tauto
  · intro d
    simp [List.mem_append]

/-- C3: for DotFun states, join keeps A-entries whose dot escapes B's
context and B-entries whose dot escapes A's context, and for a dot in
both dot stores it deterministically retains the left operand A's value;
the context is the union of both contexts. -/
theorem dotFun_join_spec {K V : Type} [DecidableEq K]
    (m1 m2 : List (Dot × V)) (c1 c2 : List Dot) :
    ∃ r : CState K V,
      CState.join ⟨.dotFun m1, c1⟩ ⟨.dotFun m2, c2⟩ = some r ∧
      (∃ m, r.ds = .dotFun m ∧ ∀ d,
        alookup m d =
          if (alookup m1 d).isSome ∧ (alookup m2 d).isSome then alookup m1 d
          else if (alookup m2 d).isSome ∧ d ∉ c1 then alookup m2 d
          else if (alookup m1 d).isSome ∧ d ∉ c2 then alookup m1 d
          else none) ∧
      (∀ d, d ∈ r.ctx ↔ d ∈ c1 ∨ d ∈ c2) := by
  refine ⟨⟨.dotFun (m1.filter (fun p => (alookup m2 p.1).isSome)
      ++ m2.filter (fun p => decide (p.1 ∉ c1))
      ++ m1.filter (fun p => decide (p.1 ∉ c2))), c1 ++ c2⟩,
    ?_, ⟨_, rfl, ?_⟩, ?_⟩
  · simp [CState.join, joinStore]
  · intro d
    have A1 := alookup_filter_key (fun x : Dot => (alookup m2 x).isSome) m1 d
    have A2 := alookup_filter_key (fun x : Dot => decide (x ∉ c1)) m2 d
    have A3 := alookup_filter_key (fun x : Dot => decide (x ∉ c2)) m1 d
    rw [alookup_append, alookup_append, A1, A2, A3]
    rcases h1 : alookup m1 d with _ | v1 <;>
      rcases h2 : alookup m2 d with _ | v2 <;>
        by_cases hc1 : d ∈ c1 <;> by_cases hc2 : d ∈ c2 <;>
          simp [h1, h2, hc1, hc2]
  · intro d
    simp [List.mem_append]

/-- C4: for DotMap states, join maps each key of the union of the two
domains to the recursive join of the two sides' values at that key (the
respective designated bottom substituted for an absent key), each
per-key join performed under the full parent causal contexts; keys whose
joined value is bottom are dropped, and the context is the union of both
contexts. -/
theorem dotMap_join_spec {K V : Type} [DecidableEq K]
    (b1 b2 : DStore K V) (m1 m2 : List (K × DStore K V)) (c1 c2 : List Dot)
    (r : CState K V)
    (h : CState.join ⟨.dotMap b1 m1, c1⟩ ⟨.dotMap b2 m2, c2⟩ = some r) :
    r.ds = .dotMap b1 (DStore.mapOf r.ds) ∧
    (∀ k, alookup (DStore.mapOf r.ds) k =
        if (alookup m1 k).isSome ∨ (alookup m2 k).isSome then
          (joinStore (getD m1 k b1) c1 (getD m2 k b2) c2).bind
            (fun v => if v.isBottom then none else some v)
        else none) ∧
    (∀ d, d ∈ r.ctx ↔ d ∈ c1 ∨ d ∈ c2) := by
  simp only [CState.join, joinStore, Option.map_map, Option.map_eq_some'] at h
  obtain ⟨m, hm, hr⟩ := h
  subst hr
  have hks : ((DStore.keysOf m1 ++ DStore.keysOf m2).dedup).Nodup :=
    List.nodup_dedup _
  have hlk := joinEntries_alookup hks hm
  refine ⟨rfl, ?_, ?_⟩
  · intro k
    show alookup m k = _
    rw [hlk k]
    have hcond : (k ∈ (DStore.keysOf m1 ++ DStore.keysOf m2).dedup) ↔
        ((alookup m1 k).isSome = true ∨ (alookup m2 k).isSome = true) := by
      simp [List.mem_dedup, List.mem_append, DStore.keysOf, alookup_isSome_iff]
    by_cases hc : (alookup m1 k).isSome = true ∨ (alookup m2 k).isSome = true
    · rw [if_pos (hcond.mpr hc), if_pos hc]
    · rw [if_neg (fun hx => hc (hcond.mp hx)), if_neg hc]
  · intro d
    simp [Function.comp, List.mem_append]

/-- Witness for C4: the DotMap join characterization applied at a
concrete pair of states. -/
theorem dotMap_join_spec_witness :
    CState.join (K := Nat) (V := Nat)
      ⟨.dotMap (.dotSet []) [(0, .dotSet [(0, 1)])], [(0, 1)]⟩
      ⟨.dotMap (.dotSet []) [], []⟩ =
      some ⟨.dotMap (.dotSet []) [(0, .dotSet [(0, 1)])], [(0, 1)]⟩ ∧
    alookup (DStore.mapOf (K := Nat) (V := Nat)
        (.dotMap (.dotSet []) [(0, .dotSet [(0, 1)])])) 0 =
      some (.dotSet [(0, 1)]) ∧
    ((0, 1) ∈ ([(0, 1)] : List Dot) ↔
      (0, 1) ∈ ([(0, 1)] : List Dot) ∨ (0, 1) ∈ ([] : List Dot)) := by
  have hj : CState.join (K := Nat) (V := Nat)
      ⟨.dotMap (.dotSet []) [(0, .dotSet [(0, 1)])], [(0, 1)]⟩
      ⟨.dotMap (.dotSet []) [], []⟩ =
      some ⟨.dotMap (.dotSet []) [(0, .dotSet [(0, 1)])], [(0, 1)]⟩ := by
    simp [CState.join, joinStore, joinEntries, DStore.keysOf, getD, alookup,
      DStore.isBottom]
  have h := dotMap_join_spec _ _ _ _ _ _ _ hj
  refine ⟨hj, ?_, ?_⟩
  · rw [h.2.1 0]
    simp [joinStore, getD, alookup, DStore.isBottom]
  · exact h.2.2 (0, 1)

/-- C1 (spec-modelled, as `next_dot` is absent from src/CRDT.py): on any
replica, `next_dot` totally (never blocking or failing) returns the dot
(replica id, incremented sequence number); the dots of any two distinct
calls on one replica differ, and dots issued by replicas with different
ids differ, so no two calls across the system return equal dots and
every dot-issuing operation can obtain a fresh dot. -/
theorem next_dot_spec :
    (∀ r : Replica, (r.next_dot).1 = (r.rid, r.seq + 1) ∧
      (r.next_dot).2.rid = r.rid) ∧
    (∀ (r : Replica) (n : Nat), r.dotAt n = (r.rid, r.seq + n + 1)) ∧
    (∀ (r : Replica) (i j : Nat), i ≠ j → r.dotAt i ≠ r.dotAt j) ∧
    (∀ (r1 r2 : Replica) (i j : Nat), r1.rid ≠ r2.rid →
      r1.dotAt i ≠ r2.dotAt j) := by
  have hA : ∀ (r : Replica) (n : Nat),
      (Replica.afterCalls r n).rid = r.rid ∧
      (Replica.afterCalls r n).seq = r.seq + n := by
    intro r n
    induction n with
    | zero => exact ⟨rfl, rfl⟩
    | succ n ih =>
        constructor
        · simp only [Replica.afterCalls, Replica.next_dot, ih.1]
        · simp only [Replica.afterCalls, Replica.next_dot, ih.2]
          omega
  have hD : ∀ (r : Replica) (n : Nat), r.dotAt n = (r.rid, r.seq + n + 1) := by
    intro r n
    simp only [Replica.dotAt, Replica.next_dot, (hA r n).1, (hA r n).2]
  refine ⟨fun r => ⟨rfl, rfl⟩, hD, ?_, ?_⟩
  · intro r i j hij
    rw [hD r i, hD r j]
    intro hc
    injection hc with h1 h2
    omega
  · intro r1 r2 i j hr
    rw [hD r1 i, hD r2 j]
    intro hc
    injection hc with h1 h2
    exact hr h1

/-- Witness for C1: distinct calls on one replica and calls on replicas
with distinct ids yield distinct dots, at concrete inputs. -/
theorem next_dot_spec_witness :
    Replica.dotAt ⟨0, 0⟩ 0 ≠ Replica.dotAt ⟨0, 0⟩ 1 ∧
    Replica.dotAt ⟨0, 0⟩ 0 ≠ Replica.dotAt ⟨1, 0⟩ 0 :=
  ⟨next_dot_spec.2.2.1 ⟨0, 0⟩ 0 1 (by decide),
   next_dot_spec.2.2.2 ⟨0, 0⟩ ⟨1, 0⟩ 0 0 (by decide)⟩

/-- C6 (code-bug exhibit): `StateCounter._doInc` accumulates with `+=`,
so re-executing the identical increment command doubles the counter
instead of leaving it at the value after the first execution. -/
theorem stateCounter_redelivery_double_counts :
    stateCounterGet (stateCounterDoInc [] 0 5) = 5 ∧
    stateCounterGet (stateCounterDoInc (stateCounterDoInc [] 0 5) 0 5) = 10 ∧
    stateCounterGet (stateCounterDoInc (stateCounterDoInc [] 0 5) 0 5) ≠
      stateCounterGet (stateCounterDoInc [] 0 5) := by
  refine ⟨rfl, rfl, ?_⟩
  decide

/-- C7: the LWW register keeps an incoming set command's value iff its
Lamport timestamp exceeds the register's current one, or the timestamps
tie and the write's origin store id exceeds the executing replica's id,
or the write originates from the executing replica itself (local-origin
precedence); otherwise the value is unchanged. -/
theorem lwwDoSet_spec {V : Type} (selfId : Nat) (st : LWWState V) (t : Nat)
    (srcStore : Nat) (v : V) :
    (lwwDoSet selfId st t srcStore v).value =
      if t > st.t ∨ (t = st.t ∧ srcStore > selfId) ∨ srcStore = selfId then v
      else st.value := by
  unfold lwwDoSet
  by_cases h1 : t > st.t
  · simp [h1]
  · by_cases h2 : t = st.t ∧ srcStore > selfId
    · simp [h1, h2]
    · by_cases h3 : srcStore = selfId
      · simp [h1, h2, h3]
      · simp [h1, h2, h3]

/-- C8 counterexample: removing an absent key from a CRDTMap does not
raise — it returns normally with the state unchanged and no child
reset, contrary to the claim that it fails with KeyNotFound. -/
theorem cmRemove_absent_no_error :
    cmRemove (⟨⟨[], []⟩, []⟩ : CRDTMapState Nat) 0 =
      Except.ok (⟨⟨[], []⟩, []⟩, none) ∧
    cmRemove (⟨⟨[], []⟩, []⟩ : CRDTMapState Nat) 0 ≠
      Except.error MapErr.keyNotFound := by
  refine ⟨rfl, ?_⟩
  intro h
  simp [cmRemove, orsContains] at h

/-- C8 amended: reading an absent key fails with the distinct catchable
KeyNotFound condition; removing an absent key silently does nothing
(no error, state unchanged, no child reset). -/
theorem cm_absent_key_spec {E : Type} [DecidableEq E] (m : CRDTMapState E)
    (k : E) (tag : Nat) (h : orsContains m.keyset k = false) :
    cmGetItem m k tag = Except.error MapErr.keyNotFound ∧
    cmRemove m k = Except.ok (m, none) := by
  constructor
  · simp [cmGetItem, h]
  · simp [cmRemove, h]

/-- Witness for the amended C8 at a concrete map state. -/
theorem cm_absent_key_spec_witness :
    orsContains (⟨[], []⟩ : ORSetState Nat) 0 = false ∧
    cmGetItem (⟨⟨[], []⟩, []⟩ : CRDTMapState Nat) 0 7 =
      Except.error MapErr.keyNotFound ∧
    cmRemove (⟨⟨[], []⟩, []⟩ : CRDTMapState Nat) 0 =
      Except.ok (⟨⟨[], []⟩, []⟩, none) := by
  have h : orsContains (⟨[], []⟩ : ORSetState Nat) 0 = false := rfl
  have hs := cm_absent_key_spec (⟨⟨[], []⟩, []⟩ : CRDTMapState Nat) 0 7 h
  exact ⟨h, hs.1, hs.2⟩

/-- C10: a command whose source name is not registered at the receiving
store is silently discarded by `receive`: for any executor, the store's
CRDT table is returned unchanged and no error is raised (the function is
total). -/
theorem receive_unregistered_noop {γ σ : Type} (exec : σ → γ → σ)
    (crdts : List (Nat × σ)) (cmd : Command γ)
    (h : ∀ nm, cmd.source = some nm → alookup crdts nm = none) :
    storeReceive exec crdts cmd = crdts := by
  cases hs : cmd.source with
  | none => simp [storeReceive, hs]
  | some nm => simp [storeReceive, hs, h nm hs]

/-- Witness for C10 at a concrete store and command. -/
theorem receive_unregistered_noop_witness :
    storeReceive (fun (s : Nat) (_ : Nat) => s + 1) [(1, 0)] ⟨some 2, 0⟩ =
      [(1, 0)] :=
  receive_unregistered_noop _ _ _ (by
    intro nm h
    injection h with h
    subst h
    rfl)

/-! Machinery for the idempotence and invariant-preservation claims. -/

theorem alookup_sizeOf_lt {K V : Type} [DecidableEq K]
    {m : List (K × DStore K V)} {k : K} {v : DStore K V}
    (h : alookup m k = some v) : sizeOf v < sizeOf m := by
  have hm := alookup_some_mem h
  have h1 := List.sizeOf_lt_of_mem hm
  have h2 : sizeOf (k, v) = 1 + sizeOf k + sizeOf v := rfl
  omega

theorem isBottom_iff_emptySem {K V : Type} [DecidableEq K] (x : DStore K V) :
    x.isBottom = true ↔ Sem.isEmptySem x.denote := by
  cases x with
  | dotSet s =>
      cases s with
      | nil =>
          simp only [DStore.isBottom, DStore.denote, Sem.isEmptySem]
          refine ⟨fun _ d hd => ?_, fun _ => rfl⟩
          exact absurd hd (List.not_mem_nil d)
      | cons d rest =>
          simp only [DStore.isBottom, DStore.denote, Sem.isEmptySem,
            List.isEmpty_cons]
          constructor
          · intro hc
            exact Bool.noConfusion hc
          · intro hall
            exact absurd (List.mem_cons_self d rest) (hall d)
  | dotFun m =>
      cases m with
      | nil =>
          simp only [DStore.isBottom, DStore.denote, Sem.isEmptySem]
          exact ⟨fun _ d => rfl, fun _ => rfl⟩
      | cons p rest =>
          simp only [DStore.isBottom, DStore.denote, Sem.isEmptySem,
            List.isEmpty_cons]
          constructor
          · intro hc
            exact Bool.noConfusion hc
          · intro hall
            have hp := hall p.1
            simp [alookup] at hp
  | dotMap b m =>
      cases m with
      | nil =>
          simp only [DStore.isBottom, DStore.denote, Sem.isEmptySem]
          exact ⟨fun _ k => rfl, fun _ => rfl⟩
      | cons p rest =>
          simp only [DStore.isBottom, DStore.denote, Sem.isEmptySem,
            List.isEmpty_cons]
          constructor
          · intro hc
            exact Bool.noConfusion hc
          · intro hall
            have hp := hall p.1
            simp [denoteEntries, alookup] at hp

theorem isBottom_eq_of_denote_eq {K V : Type} [DecidableEq K]
    {a b : DStore K V} (h : a.denote = b.denote) :
    a.isBottom = b.isBottom := by
  have ha := isBottom_iff_emptySem a
  have hb := isBottom_iff_emptySem b
  rw [h] at ha
  cases hx : b.isBottom
  · cases hy : a.isBottom
    · rfl
    · exact absurd (hb.mpr (ha.mp hy)) (by rw [hx]; simp)
  · cases hy : a.isBottom
    · exact absurd (ha.mpr (hb.mp hx)) (by rw [hy]; simp)
    · rfl

theorem joinStore_self {K V : Type} [DecidableEq K] :
    ∀ (n : Nat) (a : DStore K V) (c : List Dot), sizeOf a ≤ n →
      a.noBotVals = true →
      ∃ r, joinStore a c a c = some r ∧ r.denote = a.denote := by
  intro n
  induction' n using Nat.strong_induction_on with n IH
  intro a c hsize hnb
  cases a with
  | dotSet s =>
      refine ⟨.dotSet (s.filter (fun d => decide (d ∈ s))
          ++ s.filter (fun d => decide (d ∉ c))
          ++ s.filter (fun d => decide (d ∉ c))), by simp [joinStore], ?_⟩
      simp only [DStore.denote]
      congr 1
      funext d
      apply propext
      simp only [List.mem_append, List.mem_filter, decide_eq_true_eq]
      tauto
  | dotFun m =>
      refine ⟨.dotFun (m.filter (fun p => (alookup m p.1).isSome)
          ++ m.filter (fun p => decide (p.1 ∉ c))
          ++ m.filter (fun p => decide (p.1 ∉ c))), by simp [joinStore], ?_⟩
      simp only [DStore.denote]
      congr 1
      funext d
      have A1 := alookup_filter_key (fun x : Dot => (alookup m x).isSome) m d
      have A2 := alookup_filter_key (fun x : Dot => decide (x ∉ c)) m d
      rw [alookup_append, alookup_append, A1, A2]
      rcases h1 : alookup m d with _ | v1 <;> by_cases hc1 : d ∈ c <;>
        simp [h1, hc1]
  | dotMap b m =>
      have hsz : sizeOf m < sizeOf (DStore.dotMap b m) := by
        simp only [DStore.dotMap.sizeOf_spec]
        omega
      have hnbm : noBotValsEntries m = true := by
        simpa [DStore.noBotVals] using hnb
      have hent : ∀ ks : List K, ks.Nodup →
          (∀ k ∈ ks, (alookup m k).isSome = true) →
          ∃ mm, joinEntries ks b m c b m c = some mm ∧
            (∀ k ∈ ks, (alookup mm k).map DStore.denote =
              (alookup m k).map DStore.denote) ∧
            (∀ k, k ∉ ks → alookup mm k = none) := by
        intro ks
        induction ks with
        | nil =>
            intro _ _
            exact ⟨[], by simp [joinEntries], by simp, fun k _ => rfl⟩
        | cons k0 ks ih =>
            intro hnd hks
            have hk0 : (alookup m k0).isSome = true :=
              hks k0 (List.mem_cons_self _ _)
            rcases hv0 : alookup m k0 with _ | v0
            · rw [hv0] at hk0
              cases hk0
            · have hgd : getD m k0 b = v0 := by simp [getD, hv0]
              have hszv : sizeOf v0 < n :=
                lt_of_lt_of_le (lt_of_lt_of_le (alookup_sizeOf_lt hv0)
                  (le_of_lt hsz)) hsize
              have hnbv := noBotValsEntries_alookup hnbm hv0
              obtain ⟨v', hj, hd⟩ := IH (sizeOf v0) hszv v0 c le_rfl hnbv.2
              have hbot' : v'.isBottom = false := by
                rw [isBottom_eq_of_denote_eq hd, hnbv.1]
              obtain ⟨mm, hmm, hlk, hnotin⟩ :=
                ih (List.nodup_cons.mp hnd).2
                  (fun k hk => hks k (List.mem_cons_of_mem _ hk))
              refine ⟨(k0, v') :: mm, ?_, ?_, ?_⟩
              · simp [joinEntries, hgd, hj, hmm, hbot']
              · intro k hk
                rcases List.mem_cons.mp hk with hkeq | hkmem
                · subst hkeq
                  simp [alookup, hv0, hd]
                · have hkne : k ≠ k0 := by
                    intro hkk
                    rw [hkk] at hkmem
                    exact (List.nodup_cons.mp hnd).1 hkmem
                  rw [show alookup ((k0, v') :: mm) k = alookup mm k from by
                    simp only [alookup]
                    rw [if_neg (fun hc2 => hkne ((show k0 = k from hc2).symm))]]
                  exact hlk k hkmem
              · intro k hk
                have hkne : k ≠ k0 := fun hkk =>
                  hk (hkk ▸ List.mem_cons_self _ _)
                rw [show alookup ((k0, v') :: mm) k = alookup mm k from by
                  simp only [alookup]
                  rw [if_neg (fun hc2 => hkne ((show k0 = k from hc2).symm))]]
                exact hnotin k (fun hkk => hk (List.mem_cons_of_mem _ hkk))
      have hksnd : ((DStore.keysOf m ++ DStore.keysOf m).dedup).Nodup :=
        List.nodup_dedup _
      have hksmem : ∀ k ∈ (DStore.keysOf m ++ DStore.keysOf m).dedup,
          (alookup m k).isSome = true := by
        intro k hk
        rw [alookup_isSome_iff]
        simpa [DStore.keysOf, List.mem_dedup, List.mem_append, or_self]
          using hk
      obtain ⟨mm, hmm, hlk, hnotin⟩ := hent _ hksnd hksmem
      refine ⟨.dotMap b mm, ?_, ?_⟩
      · simp [joinStore, hmm]
      · simp only [DStore.denote]
        congr 1
        funext k
        rw [alookup_denoteEntries, alookup_denoteEntries]
        by_cases hk : k ∈ (DStore.keysOf m ++ DStore.keysOf m).dedup
        · exact hlk k hk
        · rw [hnotin k hk]
          have hmk : alookup m k = none := by
            rcases hx : alookup m k with _ | vv
            · rfl
            · exfalso
              apply hk
              have hmem : k ∈ m.map Prod.fst :=
                (alookup_isSome_iff m k).mp (by rw [hx]; rfl)
              simp only [List.mem_dedup, List.mem_append, DStore.keysOf]
              exact Or.inl hmem
          rw [hmk]

/-- C5 counterexample: the state A with dot store
DotMap (0 ↦ empty DotSet) and empty causal context satisfies the
store-dots-within-context invariant, yet join(A, A) drops the key 0 and
returns a state whose dot store differs from A's — join is not
idempotent on every state satisfying the claimed invariant alone. -/
theorem join_self_not_idempotent_cex :
    CState.inv (K := Nat) (V := Nat)
      ⟨.dotMap (.dotSet []) [(0, .dotSet [])], []⟩ ∧
    CState.join (K := Nat) (V := Nat)
      ⟨.dotMap (.dotSet []) [(0, .dotSet [])], []⟩
      ⟨.dotMap (.dotSet []) [(0, .dotSet [])], []⟩ =
      some ⟨.dotMap (.dotSet []) [], []⟩ ∧
    DStore.denote (K := Nat) (V := Nat) (.dotMap (.dotSet []) []) ≠
      DStore.denote (.dotMap (.dotSet []) [(0, .dotSet [])]) := by
  refine ⟨?_, ?_, ?_⟩
  · intro d hd
    simp [DStore.dotsList, DStore.dotsOfEntries] at hd
  · simp [CState.join, joinStore, joinEntries, DStore.keysOf, getD, alookup,
      DStore.isBottom]
  · intro h
    have h2 := congrArg (fun s => match s with
      | Sem.dotMap _ mm => mm 0
      | _ => none) h
    simp [DStore.denote, denoteEntries, alookup] at h2

/-- C5 amended: join is idempotent on causal CRDT states none of whose
nested dot-map entries is a bottom dot store (as holds for states built
by the library's operations and joins): join(A, A) succeeds and returns
a state with the same dot-store denotation and the same causal context
as A. -/
theorem join_self_idempotent {K V : Type} [DecidableEq K]
    (A : CState K V) (h : A.ds.noBotVals = true) :
    ∃ r : CState K V, CState.join A A = some r ∧
      r.ds.denote = A.ds.denote ∧ (∀ d, d ∈ r.ctx ↔ d ∈ A.ctx) := by
  obtain ⟨r, hr, hd⟩ := joinStore_self (sizeOf A.ds) A.ds A.ctx le_rfl h
  refine ⟨⟨r, A.ctx ++ A.ctx⟩, ?_, hd, ?_⟩
  · simp [CState.join, hr]
  · intro d
    simp [List.mem_append]

/-- Witness for the amended C5 at a concrete state. -/
theorem join_self_idempotent_witness :
    DStore.noBotVals (K := Nat) (V := Nat)
      (.dotMap (.dotSet []) [(0, .dotSet [(0, 1)])]) = true ∧
    ∃ r : CState Nat Nat,
      CState.join ⟨.dotMap (.dotSet []) [(0, .dotSet [(0, 1)])], [(0, 1)]⟩
        ⟨.dotMap (.dotSet []) [(0, .dotSet [(0, 1)])], [(0, 1)]⟩ = some r ∧
      r.ds.denote =
        DStore.denote (.dotMap (.dotSet []) [(0, .dotSet [(0, 1)])]) ∧
      (∀ d, d ∈ r.ctx ↔ d ∈ ([(0, 1)] : List Dot)) :=
  ⟨rfl, join_self_idempotent
    ⟨.dotMap (.dotSet []) [(0, .dotSet [(0, 1)])], [(0, 1)]⟩ rfl⟩

theorem joinStore_preserves {K V : Type} [DecidableEq K] :
    ∀ (n : Nat) (a b : DStore K V) (c1 c2 : List Dot) (r : DStore K V),
      sizeOf a + sizeOf b ≤ n →
      joinStore a c1 b c2 = some r →
      (∀ d ∈ a.dotsList, d ∈ c1) → (∀ d ∈ b.dotsList, d ∈ c2) →
      a.botsOk = true → b.botsOk = true →
      (∀ d ∈ r.dotsList, d ∈ c1 ∨ d ∈ c2) ∧ r.botsOk = true := by
  intro n
  induction' n using Nat.strong_induction_on with n IH
  intro a b c1 c2 r hsize hj ha hb hba hbb
  cases a with
  | dotSet s1 =>
      cases b with
      | dotSet s2 =>
          simp only [joinStore] at hj
          injection hj with hj
          subst hj
          simp only [DStore.dotsList] at ha hb
          constructor
          · intro d hd
            simp only [DStore.dotsList, List.mem_append, List.mem_filter,
              decide_eq_true_eq] at hd
            rcases hd with (h | h) | h
            · exact Or.inl (ha d h.2)
            · exact Or.inl (ha d h.1)
            · exact Or.inr (hb d h.1)
          · simp [DStore.botsOk]
      | dotFun m2 =>
          simp only [joinStore] at hj
          exact Option.noConfusion hj
      | dotMap b2 m2 =>
          simp only [joinStore] at hj
          exact Option.noConfusion hj
  | dotFun m1 =>
      cases b with
      | dotSet s2 =>
          simp only [joinStore] at hj
          exact Option.noConfusion hj
      | dotFun m2 =>
          simp only [joinStore] at hj
          injection hj with hj
          subst hj
          simp only [DStore.dotsList] at ha hb
          constructor
          · intro d hd
            simp only [DStore.dotsList, List.map_append, List.mem_append,
              List.mem_map, List.mem_filter, decide_eq_true_eq] at hd
            rcases hd with (⟨p, ⟨hp, _⟩, hpd⟩ | ⟨p, ⟨hp, _⟩, hpd⟩) |
              ⟨p, ⟨hp, _⟩, hpd⟩
            · subst hpd
              exact Or.inl (ha p.1 (List.mem_map_of_mem Prod.fst hp))
            · subst hpd
              exact Or.inr (hb p.1 (List.mem_map_of_mem Prod.fst hp))
            · subst hpd
              exact Or.inl (ha p.1 (List.mem_map_of_mem Prod.fst hp))
          · simp [DStore.botsOk]
      | dotMap b2 m2 =>
          simp only [joinStore] at hj
          exact Option.noConfusion hj
  | dotMap b1 m1 =>
      cases b with
      | dotSet s2 =>
          simp only [joinStore] at hj
          exact Option.noConfusion hj
      | dotFun m2 =>
          simp only [joinStore] at hj
          exact Option.noConfusion hj
      | dotMap b2 m2 =>
          simp only [joinStore] at hj
          rw [Option.map_eq_some'] at hj
          obtain ⟨mm, hmm, hr⟩ := hj
          subst hr
          simp only [DStore.dotsList] at ha hb
          simp only [DStore.botsOk, Bool.and_eq_true] at hba hbb
          have hent : ∀ (ks : List K) (mm2 : List (K × DStore K V)),
              joinEntries ks b1 m1 c1 b2 m2 c2 = some mm2 →
              (∀ d ∈ DStore.dotsOfEntries mm2, d ∈ c1 ∨ d ∈ c2) ∧
              botsOkEntries mm2 = true := by
            intro ks
            induction ks with
            | nil =>
                intro mm2 h
                simp only [joinEntries] at h
                injection h with h
                subst h
                exact ⟨by simp [DStore.dotsOfEntries], by simp [botsOkEntries]⟩
            | cons k0 ks ih =>
                intro mm2 h
                simp only [joinEntries, Option.bind_eq_bind,
                  Option.bind_eq_some] at h
                obtain ⟨v, hv, rest, hrest, hmmv⟩ := h
                injection hmmv with hmmv
                subst hmmv
                have hga : ∀ d ∈ (getD m1 k0 b1).dotsList, d ∈ c1 := by
                  intro d hd
                  rcases hx : alookup m1 k0 with _ | v1
                  · simp only [getD, hx, Option.getD_none] at hd
                    rw [isBottom_dotsList hba.1.1] at hd
                    cases hd
                  · simp only [getD, hx, Option.getD_some] at hd
                    exact ha d (mem_dotsOfEntries hx hd)
                have hgb : ∀ d ∈ (getD m2 k0 b2).dotsList, d ∈ c2 := by
                  intro d hd
                  rcases hx : alookup m2 k0 with _ | v2
                  · simp only [getD, hx, Option.getD_none] at hd
                    rw [isBottom_dotsList hbb.1.1] at hd
                    cases hd
                  · simp only [getD, hx, Option.getD_some] at hd
                    exact hb d (mem_dotsOfEntries hx hd)
                have hgba : (getD m1 k0 b1).botsOk = true := by
                  rcases hx : alookup m1 k0 with _ | v1
                  · simp only [getD, hx, Option.getD_none]
                    exact hba.1.2
                  · simp only [getD, hx, Option.getD_some]
                    exact botsOkEntries_alookup hba.2 hx
                have hgbb : (getD m2 k0 b2).botsOk = true := by
                  rcases hx : alookup m2 k0 with _ | v2
                  · simp only [getD, hx, Option.getD_none]
                    exact hbb.1.2
                  · simp only [getD, hx, Option.getD_some]
                    exact botsOkEntries_alookup hbb.2 hx
                have hszk : sizeOf (getD m1 k0 b1) + sizeOf (getD m2 k0 b2) < n := by
                  have g1 := getD_sizeOf_lt m1 k0 b1
                  have g2 := getD_sizeOf_lt m2 k0 b2
                  have hsz2 : sizeOf (DStore.dotMap b1 m1) +
                      sizeOf (DStore.dotMap b2 m2) ≤ n := hsize
                  simp only [DStore.dotMap.sizeOf_spec] at hsz2
                  omega
                obtain ⟨hvd, hvb⟩ :=
                  IH _ hszk _ _ _ _ _ le_rfl hv hga hgb hgba hgbb
                obtain ⟨hrd, hrb⟩ := ih rest hrest
                by_cases hbot : v.isBottom = true
                · rw [if_pos hbot]
                  exact ⟨hrd, hrb⟩
                · rw [if_neg hbot]
                  constructor
                  · intro d hd
                    simp only [DStore.dotsOfEntries, List.mem_append] at hd
                    rcases hd with hd | hd
                    · exact hvd d hd
                    · exact hrd d hd
                  · simp [botsOkEntries, hvb, hrb]
          obtain ⟨hdm, hbents⟩ := hent _ mm hmm
          constructor
          · intro d hdd
            simp only [DStore.dotsList] at hdd
            exact hdm d hdd
          · simp [DStore.botsOk, hba.1.1, hba.1.2, hbents]

/-- C9 counterexample: two states that both satisfy the
dots-within-context invariant whose join violates it.  A's designated
bottom value is a non-empty DotSet (its dots are invisible to `dots()`
and hence to the invariant); joining with a state that has a key absent
from A materializes that bottom, leaking the dot (0,1) into the result's
store while neither context contains it. -/
theorem join_inv_not_preserved_cex :
    CState.inv (K := Nat) (V := Nat)
      ⟨.dotMap (.dotSet [(0, 1)]) [(0, .dotSet [(0, 2)])], [(0, 2)]⟩ ∧
    CState.inv (K := Nat) (V := Nat)
      ⟨.dotMap (.dotSet []) [(1, .dotSet [(1, 1)])], [(1, 1)]⟩ ∧
    CState.join (K := Nat) (V := Nat)
      ⟨.dotMap (.dotSet [(0, 1)]) [(0, .dotSet [(0, 2)])], [(0, 2)]⟩
      ⟨.dotMap (.dotSet []) [(1, .dotSet [(1, 1)])], [(1, 1)]⟩ =
      some ⟨.dotMap (.dotSet [(0, 1)])
        [(0, .dotSet [(0, 2)]), (1, .dotSet [(0, 1), (1, 1)])],
        [(0, 2), (1, 1)]⟩ ∧
    ¬ CState.inv (K := Nat) (V := Nat)
      ⟨.dotMap (.dotSet [(0, 1)])
        [(0, .dotSet [(0, 2)]), (1, .dotSet [(0, 1), (1, 1)])],
        [(0, 2), (1, 1)]⟩ := by
  refine ⟨?_, ?_, ?_, ?_⟩
  · intro d hd
    simp [DStore.dotsList, DStore.dotsOfEntries] at hd
    simp [hd]
  · intro d hd
    simp [DStore.dotsList, DStore.dotsOfEntries] at hd
    simp [hd]
  · simp [CState.join, joinStore, joinEntries, DStore.keysOf, getD, alookup,
      DStore.isBottom]
    decide
  · intro h
    have hmem := h (0, 1) (by simp [DStore.dotsList, DStore.dotsOfEntries])
    simp at hmem

/-- C9 amended: with the invariant strengthened by the (library-
maintained) requirement that every designated bottom value is empty,
every delta emitted by the concrete operations satisfies the
dots-within-context invariant together with the empty-bottoms property
(for `ORMap.apply`, provided the supplied mutation preserves them), and
join of any two states satisfying both produces a state satisfying
both. -/
theorem deltas_and_join_satisfy_invariant {K E V : Type} [DecidableEq K]
    [DecidableEq E] :
    (∀ (cur : CState K V) (dot : Dot) (v : V),
      CState.inv (mvWriteDelta cur dot v) ∧
      (mvWriteDelta cur dot v).ds.botsOk = true) ∧
    (∀ cur : CState K V,
      CState.inv (mvClearDelta cur) ∧ (mvClearDelta cur).ds.botsOk = true) ∧
    (∀ (cur : CState K V) (dot : Dot) (e : K),
      CState.inv (awAddDelta cur dot e) ∧
      (awAddDelta cur dot e).ds.botsOk = true) ∧
    (∀ (cur : CState K V) (e : K),
      CState.inv (awRemoveDelta cur e) ∧
      (awRemoveDelta cur e).ds.botsOk = true) ∧
    (∀ cur : CState K V,
      CState.inv (awClearDelta cur) ∧ (awClearDelta cur).ds.botsOk = true) ∧
    (∀ (cur : CState (E ⊕ Bool) V) (dot : Dot) (e : E),
      CState.inv (rwAddDelta cur dot e) ∧
      (rwAddDelta cur dot e).ds.botsOk = true) ∧
    (∀ (cur : CState (E ⊕ Bool) V) (dot : Dot) (e : E),
      CState.inv (rwRemoveDelta cur dot e) ∧
      (rwRemoveDelta cur dot e).ds.botsOk = true) ∧
    (∀ cur : CState (E ⊕ Bool) V,
      CState.inv (rwClearDelta cur) ∧ (rwClearDelta cur).ds.botsOk = true) ∧
    (∀ (cur : CState K V) (k : K) (f : CState K V → CState K V)
        (delta : CState K V),
      CState.inv cur → cur.ds.botsOk = true →
      (∀ s : CState K V, CState.inv s → s.ds.botsOk = true →
        CState.inv (f s) ∧ (f s).ds.botsOk = true) →
      orMapApply cur k f = some delta →
      CState.inv delta ∧ delta.ds.botsOk = true) ∧
    (∀ (cur : CState K V) (k : K) (delta : CState K V),
      cur.ds.botsOk = true → orMapRemoveDelta cur k = some delta →
      CState.inv delta ∧ delta.ds.botsOk = true) ∧
    (∀ cur : CState K V,
      CState.inv (orMapClearDelta cur) ∧
      (orMapClearDelta cur).ds.botsOk = true) ∧
    (∀ A B r : CState K V, CState.inv A → CState.inv B →
      A.ds.botsOk = true → B.ds.botsOk = true →
      CState.join A B = some r →
      CState.inv r ∧ r.ds.botsOk = true) := by
  refine ⟨?_, ?_, ?_, ?_, ?_, ?_, ?_, ?_, ?_, ?_, ?_, ?_⟩
  · intro cur dot v
    constructor
    · intro d hd
      simp only [mvWriteDelta, DStore.dotsList, List.map_cons,
        List.map_nil, List.mem_singleton] at hd
      subst hd
      simp [mvWriteDelta]
    · simp [mvWriteDelta, DStore.botsOk]
  · intro cur
    constructor
    · intro d hd
      simp [mvClearDelta, DStore.dotsList] at hd
    · simp [mvClearDelta, DStore.botsOk]
  · intro cur dot e
    constructor
    · intro d hd
      simp only [awAddDelta, DStore.dotsList, DStore.dotsOfEntries,
        List.append_nil, List.mem_singleton] at hd
      subst hd
      simp [awAddDelta]
    · simp [awAddDelta, DStore.botsOk, botsOkEntries, DStore.isBottom]
  · intro cur e
    constructor
    · intro d hd
      simp [awRemoveDelta, DStore.dotsList, DStore.dotsOfEntries] at hd
    · simp [awRemoveDelta, DStore.botsOk, botsOkEntries, DStore.isBottom]
  · intro cur
    constructor
    · intro d hd
      simp [awClearDelta, DStore.dotsList, DStore.dotsOfEntries] at hd
    · simp [awClearDelta, DStore.botsOk, botsOkEntries, DStore.isBottom]
  · intro cur dot e
    constructor
    · intro d hd
      simp only [rwAddDelta, DStore.dotsList, DStore.dotsOfEntries,
        List.append_nil, List.mem_singleton] at hd
      subst hd
      simp [rwAddDelta]
    · simp [rwAddDelta, DStore.botsOk, botsOkEntries, DStore.isBottom]
  · intro cur dot e
    constructor
    · intro d hd
      simp only [rwRemoveDelta, DStore.dotsList, DStore.dotsOfEntries,
        List.append_nil, List.mem_singleton] at hd
      subst hd
      simp [rwRemoveDelta]
    · simp [rwRemoveDelta, DStore.botsOk, botsOkEntries, DStore.isBottom]
  · intro cur
    constructor
    · intro d hd
      simp [rwClearDelta, DStore.dotsList, DStore.dotsOfEntries] at hd
    · simp [rwClearDelta, DStore.botsOk, botsOkEntries, DStore.isBottom]
  · intro cur k f delta hinv hbots hf happ
    rcases hcur : cur.ds with s | mfun | ⟨b, m⟩
    · simp [orMapApply, hcur] at happ
    · simp [orMapApply, hcur] at happ
    · simp only [orMapApply, hcur] at happ
      injection happ with happ
      subst happ
      rw [hcur] at hbots
      simp only [DStore.botsOk, Bool.and_eq_true] at hbots
      have hv0inv : CState.inv (K := K) (V := V) ⟨getD m k b, cur.ctx⟩ := by
        intro d hd
        rcases hx : alookup m k with _ | v1
        · simp only [getD, hx, Option.getD_none] at hd
          rw [isBottom_dotsList hbots.1.1] at hd
          cases hd
        · simp only [getD, hx, Option.getD_some] at hd
          refine hinv d ?_
          rw [hcur]
          simp only [DStore.dotsList]
          exact mem_dotsOfEntries hx hd
      have hv0bots : (getD m k b).botsOk = true := by
        rcases hx : alookup m k with _ | v1
        · simp only [getD, hx, Option.getD_none]
          exact hbots.1.2
        · simp only [getD, hx, Option.getD_some]
          exact botsOkEntries_alookup hbots.2 hx
      obtain ⟨hfi, hfb⟩ := hf ⟨getD m k b, cur.ctx⟩ hv0inv hv0bots
      constructor
      · intro d hd
        simp only [DStore.dotsList, DStore.dotsOfEntries,
          List.append_nil] at hd
        exact hfi d hd
      · simp [DStore.botsOk, botsOkEntries, hbots.1.1, hbots.1.2, hfb]
  · intro cur k delta hbots hrem
    rcases hcur : cur.ds with s | mfun | ⟨b, m⟩
    · simp [orMapRemoveDelta, hcur] at hrem
    · simp [orMapRemoveDelta, hcur] at hrem
    · simp only [orMapRemoveDelta, hcur] at hrem
      injection hrem with hrem
      subst hrem
      rw [hcur] at hbots
      simp only [DStore.botsOk, Bool.and_eq_true] at hbots
      constructor
      · intro d hd
        simp [DStore.dotsList, DStore.dotsOfEntries] at hd
      · simp [DStore.botsOk, botsOkEntries, hbots.1.1, hbots.1.2]
  · intro cur
    constructor
    · intro d hd
      simp [orMapClearDelta, DStore.dotsList, DStore.dotsOfEntries] at hd
    · simp [orMapClearDelta, DStore.botsOk, botsOkEntries, DStore.isBottom]
  · intro A B r hiA hiB hbA hbB hj
    simp only [CState.join, Option.map_eq_some'] at hj
    obtain ⟨s, hs, hr⟩ := hj
    subst hr
    obtain ⟨hdots, hbots⟩ := joinStore_preserves (sizeOf A.ds + sizeOf B.ds)
      A.ds B.ds A.ctx B.ctx s le_rfl hs hiA hiB hbA hbB
    constructor
    · intro d hdd
      exact List.mem_append.mpr (hdots d hdd)
    · exact hbots

/-- Witness for the amended C9: a write delta satisfies the invariant,
and the join of two concrete invariant-satisfying states satisfies it. -/
theorem deltas_and_join_satisfy_invariant_witness :
    CState.inv (K := Nat) (V := Nat) (mvWriteDelta ⟨.dotFun [], []⟩ (0, 1) 5) ∧
    (CState.inv (K := Nat) (V := Nat)
        ⟨.dotSet [(0, 1), (1, 1)], [(0, 1), (1, 1)]⟩ ∧
      DStore.botsOk (K := Nat) (V := Nat) (.dotSet [(0, 1), (1, 1)]) = true) := by
  constructor
  · exact ((deltas_and_join_satisfy_invariant (K := Nat) (E := Nat)
      (V := Nat)).1 ⟨.dotFun [], []⟩ (0, 1) 5).1
  · have hj : CState.join (K := Nat) (V := Nat)
        ⟨.dotSet [(0, 1)], [(0, 1)]⟩ ⟨.dotSet [(1, 1)], [(1, 1)]⟩ =
        some ⟨.dotSet [(0, 1), (1, 1)], [(0, 1), (1, 1)]⟩ := by
      simp [CState.join, joinStore]
      decide
    exact (deltas_and_join_satisfy_invariant (K := Nat) (E := Nat)
      (V := Nat)).2.2.2.2.2.2.2.2.2.2.2
      ⟨.dotSet [(0, 1)], [(0, 1)]⟩ ⟨.dotSet [(1, 1)], [(1, 1)]⟩
      ⟨.dotSet [(0, 1), (1, 1)], [(0, 1), (1, 1)]⟩
      (by intro d hd; simp [DStore.dotsList] at hd; simp [hd])
      (by intro d hd; simp [DStore.dotsList] at hd; simp [hd])
      rfl rfl hj
